import Mathlib

/-!
A shallow embedding of the replicated key-value store core: the
Version/Operation/Record model, the in-memory store, the Engine state
machine (WAL append, sync, apply, replicate), the consistent-hash ring
and the routing selector.  Definitions mirror the Go source; theorems
settle the specification claims.

Go strings are compared byte-wise; we model a string by its list of
characters and compare code points lexicographically, which agrees with
byte-wise comparison of the UTF-8 encoding.
-/

/-- Lexicographic comparison of character lists, modelling Go string
comparison (a strict proper-prefix is smaller). -/
def charsLt : List Char → List Char → Bool
  | [], [] => false
  | [], _ :: _ => true
  | _ :: _, [] => false
  | a :: as, b :: bs =>
    if a.toNat < b.toNat then true
    else if b.toNat < a.toNat then false
    else charsLt as bs

/-- Go string comparison via the underlying character list. -/
def strLt (a b : String) : Bool := charsLt a.data b.data

theorem charsLt_irrefl (as : List Char) : charsLt as as = false := by
  induction as with
  | nil => rfl
  | cons a as ih => simp [charsLt, ih]

theorem charsLt_trichotomy (as bs : List Char) :
    charsLt as bs = true ∨ as = bs ∨ charsLt bs as = true := by
  induction as generalizing bs with
  | nil => cases bs <;> simp [charsLt]
  | cons a as ih =>
    cases bs with
    | nil => simp [charsLt]
    | cons b bs =>
      rcases Nat.lt_trichotomy a.toNat b.toNat with h | h | h
      · exact Or.inl (by simp [charsLt, h])
      · have hab : a = b := by
          apply Char.ext
          apply UInt32.ext
          simpa [Char.toNat, UInt32.toNat] using h
        rcases ih bs with h2 | h2 | h2
        · exact Or.inl (by simp [charsLt, h, Nat.lt_irrefl, h2])
        · exact Or.inr (Or.inl (by rw [hab, h2]))
        · exact Or.inr (Or.inr (by simp [charsLt, h.symm, Nat.lt_irrefl, h2]))
      · exact Or.inr (Or.inr (by simp [charsLt, h, Nat.lt_asymm h]))

theorem charsLt_asymm {as bs : List Char} (h : charsLt as bs = true) :
    charsLt bs as = false := by
  induction as generalizing bs with
  | nil => cases bs <;> simp_all [charsLt]
  | cons a as ih =>
    cases bs with
    | nil => simp_all [charsLt]
    | cons b bs =>
      by_cases h1 : a.toNat < b.toNat
      · simp [charsLt, h1, Nat.lt_asymm h1]
      · by_cases h2 : b.toNat < a.toNat
        · simp [charsLt, h1, h2] at h
        · simp only [charsLt, h1, h2, if_false] at h ⊢
          exact ih h

theorem charsLt_trans {as bs cs : List Char}
    (h1 : charsLt as bs = true) (h2 : charsLt bs cs = true) :
    charsLt as cs = true := by
  induction as generalizing bs cs with
  | nil =>
    cases bs with
    | nil => simp [charsLt] at h1
    | cons b bs => cases cs with
      | nil => simp [charsLt] at h2
      | cons c cs => simp [charsLt]
  | cons a as ih =>
    cases bs with
    | nil => simp [charsLt] at h1
    | cons b bs =>
      cases cs with
      | nil => simp [charsLt] at h2
      | cons c cs =>
        simp only [charsLt] at h1 h2 ⊢
        by_cases hab : a.toNat < b.toNat
        · by_cases hbc : b.toNat < c.toNat
          · simp [Nat.lt_trans hab hbc]
          · by_cases hcb : c.toNat < b.toNat
            · simp [hbc, hcb] at h2
            · have hbc' : b.toNat = c.toNat := Nat.le_antisymm (Nat.le_of_not_lt hcb) (Nat.le_of_not_lt hbc)
              simp [hbc' ▸ hab]
        · by_cases hba : b.toNat < a.toNat
          · simp [hab, hba] at h1
          · have hab' : a.toNat = b.toNat := Nat.le_antisymm (Nat.le_of_not_lt hba) (Nat.le_of_not_lt hab)
            simp only [hab, hba, if_false] at h1
            by_cases hbc : b.toNat < c.toNat
            · simp [hab' ▸ hbc]
            · by_cases hcb : c.toNat < b.toNat
              · simp [hbc, hcb] at h2
              · simp only [hbc, hcb, if_false] at h2
                simp [hab' ▸ hbc, hab' ▸ hcb, ih h1 h2]

theorem strLt_iff_data (a b : String) :
    strLt a b = true ↔ charsLt a.data b.data = true := Iff.rfl

theorem strLt_trichotomy (a b : String) :
    strLt a b = true ∨ a = b ∨ strLt b a = true := by
  rcases charsLt_trichotomy a.data b.data with h | h | h
  · exact Or.inl h
  · refine Or.inr (Or.inl ?_)
    cases a; cases b; exact congrArg String.mk (by simpa using h)
  · exact Or.inr (Or.inr h)

theorem strLt_irrefl (a : String) : strLt a a = false := charsLt_irrefl a.data

theorem strLt_asymm {a b : String} (h : strLt a b = true) : strLt b a = false :=
  charsLt_asymm h

theorem strLt_trans {a b c : String} (h1 : strLt a b = true)
    (h2 : strLt b c = true) : strLt a c = true := charsLt_trans h1 h2

/-- Version defines a total ordering for writes (source: Version struct).
`NodeID` is a Go string, `Seq` a uint64 (modelled as `Nat`; the local
sequence counter wraps at 2^64 as uint64 addition does, see `nextSeq`). -/
structure Version where
  NodeID : String
  Seq : Nat
deriving DecidableEq, Repr

/-- `GreaterThan` returns true if `v` is strictly newer than `other`:
compare by `Seq`, break ties with `NodeID` ordering (source:
`Version.GreaterThan`). -/
def Version.GreaterThan (v other : Version) : Bool :=
  if v.Seq ≠ other.Seq then decide (v.Seq > other.Seq)
  else strLt other.NodeID v.NodeID

/-- `Equal` returns true if both versions represent the same write
(source: `Version.Equal`). -/
def Version.Equal (v other : Version) : Bool :=
  decide (v.Seq = other.Seq) && decide (v.NodeID = other.NodeID)

/-- `LessThan` returns true if `v` is strictly older than `other`
(source: `Version.LessThan`). -/
def Version.LessThan (v other : Version) : Bool :=
  if v.Seq ≠ other.Seq then decide (v.Seq < other.Seq)
  else strLt v.NodeID other.NodeID

theorem Version.gt_iff (v other : Version) :
    v.GreaterThan other = true ↔
      (other.Seq < v.Seq ∨ (v.Seq = other.Seq ∧ strLt other.NodeID v.NodeID = true)) := by
  unfold Version.GreaterThan
  by_cases h : v.Seq = other.Seq <;> simp [h]

theorem Version.lt_iff (v other : Version) :
    v.LessThan other = true ↔
      (v.Seq < other.Seq ∨ (v.Seq = other.Seq ∧ strLt v.NodeID other.NodeID = true)) := by
  unfold Version.LessThan
  by_cases h : v.Seq = other.Seq <;> simp [h]

theorem Version.eq_iff (v other : Version) :
    v.Equal other = true ↔ v = other := by
  unfold Version.Equal
  cases v; cases other
  simp [Version.mk.injEq, and_comm]

theorem Version.gt_irrefl (v : Version) : v.GreaterThan v = false := by
  by_cases h : v.GreaterThan v = true
  · rcases (Version.gt_iff v v).mp h with h1 | ⟨_, h2⟩
    · exact absurd h1 (Nat.lt_irrefl _)
    · rw [strLt_irrefl] at h2; exact absurd h2 (by simp)
  · simpa using h

theorem Version.gt_trans {a b c : Version}
    (h1 : a.GreaterThan b = true) (h2 : b.GreaterThan c = true) :
    a.GreaterThan c = true := by
  rw [Version.gt_iff] at h1 h2 ⊢
  rcases h1 with h1 | ⟨h1, h1'⟩ <;> rcases h2 with h2 | ⟨h2, h2'⟩
  · exact Or.inl (Nat.lt_trans h2 h1)
  · exact Or.inl (h2 ▸ h1)
  · exact Or.inl (h1 ▸ h2)
  · exact Or.inr ⟨h1.trans h2, strLt_trans h2' h1'⟩

/-- Flipping the arguments of `LessThan` gives `GreaterThan`. -/
theorem Version.lt_flip (a b : Version) : a.LessThan b = b.GreaterThan a := by
  unfold Version.LessThan Version.GreaterThan
  by_cases h : a.Seq = b.Seq <;> simp [h, ne_comm]

/-- OpType represents a state mutating operation (source: OpType).
The vocabulary is closed: put and delete-as-tombstone. -/
inductive OpType where
  | OpPut
  | OpDelete
deriving DecidableEq, Repr

/-- Operation: the unit of durability and replication (source: Operation).
The Go field `Type` is spelled `Typ` (keyword); `Value` models `[]byte`
as a byte list, `[]` standing for Go `nil` on deletes. -/
structure Operation where
  Typ : OpType
  Key : String
  Value : List Nat
  Version : Version
deriving DecidableEq, Repr

/-- Record represents the latest known state for a key (source: Record). -/
structure Record where
  Value : List Nat
  Version : Version
  Tombstone : Bool
deriving DecidableEq, Repr

/-- IsDeleted returns true if this record represents a deleted key
(source: Record.IsDeleted). -/
def Record.IsDeleted (r : Record) : Bool := r.Tombstone

/-- The MemStore backing map (source: MemStore.data): at most one Record
per key, modelled as a function to `Option Record`. -/
def StoreMap : Type := String → Option Record

/-- MemStore.Get: absent for missing or tombstoned keys
(source: MemStore.Get). -/
def memGet (s : StoreMap) (key : String) : Option Record :=
  match s key with
  | none => none
  | some r => if r.IsDeleted then none else some r

/-- MemStore.Put: rejects a record whose Version is not strictly newer
than the existing one (source: MemStore.Put). -/
def memPut (key : String) (record : Record) (s : StoreMap) : StoreMap :=
  match s key with
  | some existing =>
    if record.Version.GreaterThan existing.Version then
      fun k => if k = key then some record else s k
    else s
  | none => fun k => if k = key then some record else s k

/-- Engine configuration (source: EngineConfig). -/
structure EngineConfig where
  NodeID : String
  SyncWrites : Bool
  EnableReplica : Bool

/-- The Engine state: config, store, WAL contents, the operations handed
to the Replicator so far, and the local sequence counter
(source: Engine struct). -/
structure Engine where
  cfg : EngineConfig
  store : StoreMap
  wal : List Operation
  repl : List Operation
  seq : Nat

/-- The uint64 increment performed by the per-node sequence counter
(source: atomic.AddUint64(&e.seq, 1)). -/
def nextSeq (s : Nat) : Nat := (s + 1) % 18446744073709551616

/-- Errors surfaced by the WAL collaborator (source: WAL.Append / WAL.Sync
error returns, injected here through the `appendOk` / `syncOk` flags). -/
inductive WalError where
  | appendFailed
  | syncFailed
deriving DecidableEq, Repr

/-- Engine.applyNoWal, restricted to its effect on the Store: fold one
operation into the materialized state (source: Engine.applyNoWal). -/
def applyOpStore (s : StoreMap) (op : Operation) : StoreMap :=
  match op.Typ with
  | OpType.OpPut => memPut op.Key ⟨op.Value, op.Version, false⟩ s
  | OpType.OpDelete => memPut op.Key ⟨[], op.Version, true⟩ s

/-- Engine.applyNoWal (source: Engine.applyNoWal). -/
def applyNoWal (e : Engine) (op : Operation) : Engine :=
  { e with store := applyOpStore e.store op }

/-- Engine.newOp: allocate a fresh local Version by incrementing the
sequence counter (source: Engine.newOp). -/
def newOp (e : Engine) (kind : OpType) (key : String) (value : List Nat) :
    Operation × Engine :=
  let seq' := nextSeq e.seq
  (⟨kind, key, value, ⟨e.cfg.NodeID, seq'⟩⟩, { e with seq := seq' })

/-- Engine.Put: WAL append, optional sync barrier, in-memory apply,
replication hand-off.  `appendOk` / `syncOk` inject the WAL collaborator's
failures; the result pairs the returned Go error with the post state
(source: Engine.Put). -/
def enginePut (e : Engine) (key : String) (value : List Nat)
    (appendOk syncOk : Bool) : Option WalError × Engine :=
  let p := newOp e OpType.OpPut key value
  let op := p.1
  let e1 := p.2
  if !appendOk then (some WalError.appendFailed, e1)
  else
    let e2 := { e1 with wal := e1.wal ++ [op] }
    if e2.cfg.SyncWrites && !syncOk then (some WalError.syncFailed, e2)
    else
      let e3 := applyNoWal e2 op
      if e3.cfg.EnableReplica then (none, { e3 with repl := e3.repl ++ [op] })
      else (none, e3)

/-- Engine.Delete: identical pipeline with a tombstone operation carrying
a nil value (source: Engine.Delete). -/
def engineDelete (e : Engine) (key : String)
    (appendOk syncOk : Bool) : Option WalError × Engine :=
  let p := newOp e OpType.OpDelete key []
  let op := p.1
  let e1 := p.2
  if !appendOk then (some WalError.appendFailed, e1)
  else
    let e2 := { e1 with wal := e1.wal ++ [op] }
    if e2.cfg.SyncWrites && !syncOk then (some WalError.syncFailed, e2)
    else
      let e3 := applyNoWal e2 op
      if e3.cfg.EnableReplica then (none, { e3 with repl := e3.repl ++ [op] })
      else (none, e3)

/-- Engine.Get (source: Engine.Get). -/
def engineGet (e : Engine) (key : String) : Option (List Nat) :=
  match memGet e.store key with
  | none => none
  | some r => if r.Tombstone then none else some r.Value

/-- The append-and-apply tail of Engine.ApplyReplica
(source: Engine.ApplyReplica, after the staleness check). -/
def applyReplicaAppend (e : Engine) (op : Operation) (appendOk : Bool) :
    Option WalError × Engine :=
  if !appendOk then (some WalError.appendFailed, e)
  else (none, applyNoWal { e with wal := e.wal ++ [op] } op)

/-- Engine.ApplyReplica: drop the operation as stale/duplicate when the
current record, as reported by Store.Get, has a Version greater than or
equal to the operation's (the source writes `rec.Version >= op.Version`);
otherwise append to the WAL and apply (source: Engine.ApplyReplica). -/
def applyReplica (e : Engine) (op : Operation) (appendOk : Bool) :
    Option WalError × Engine :=
  match memGet e.store op.Key with
  | some r =>
    if r.Version.GreaterThan op.Version || r.Version.Equal op.Version then
      (none, e)
    else applyReplicaAppend e op appendOk
  | none => applyReplicaAppend e op appendOk

/-- NewEngine: replay the WAL to rebuild in-memory state; the sequence
counter keeps the Go zero value (source: NewEngine). -/
def newEngine (cfg : EngineConfig) (replayOps : List Operation) : Engine :=
  replayOps.foldl applyNoWal
    { cfg := cfg, store := fun _ => none, wal := replayOps, repl := [], seq := 0 }

/-- C5: Version comparison is a strict total order with deterministic
tie-break: for every pair of versions exactly one of GreaterThan,
LessThan, Equal holds; comparison is by Seq first, and equal Seq values
break the tie by lexicographic NodeID comparison. -/
theorem c5_version_total_order (a b : Version) :
    ((a.GreaterThan b).toNat + (a.LessThan b).toNat + (a.Equal b).toNat = 1)
    ∧ (a.GreaterThan b = true ↔
        (b.Seq < a.Seq ∨ (a.Seq = b.Seq ∧ strLt b.NodeID a.NodeID = true))) := by
  refine ⟨?_, Version.gt_iff a b⟩
  rcases Nat.lt_trichotomy a.Seq b.Seq with h | h | h
  · simp [Version.GreaterThan, Version.LessThan, Version.Equal,
      Nat.ne_of_lt h, h, Nat.lt_asymm h]
  · rcases strLt_trichotomy a.NodeID b.NodeID with hs | hs | hs
    · have hne : a.NodeID ≠ b.NodeID := by
        intro he; rw [he, strLt_irrefl] at hs; exact Bool.noConfusion hs
      simp [Version.GreaterThan, Version.LessThan, Version.Equal, h, hs,
        strLt_asymm hs, hne]
    · simp [Version.GreaterThan, Version.LessThan, Version.Equal, h, hs,
        strLt_irrefl]
    · have hne : a.NodeID ≠ b.NodeID := by
        intro he; rw [he, strLt_irrefl] at hs; exact Bool.noConfusion hs
      simp [Version.GreaterThan, Version.LessThan, Version.Equal, h, hs,
        strLt_asymm hs, hne]
  · simp [Version.GreaterThan, Version.LessThan, Version.Equal,
      (Nat.ne_of_lt h).symm, h, Nat.lt_asymm h]

/-- C2: for Engine.Put and Engine.Delete, a WAL append failure, or a sync
failure under synchronous durability, is returned to the caller, leaves
the Store unchanged (pre-state preserved) and never reaches the
Replicator; on append failure the WAL is unchanged as well. -/
theorem c2_wal_failure_aborts_write (e : Engine) (key : String)
    (value : List Nat) (syncOk : Bool) :
    ((enginePut e key value false syncOk).1 = some WalError.appendFailed
      ∧ (enginePut e key value false syncOk).2.store = e.store
      ∧ (enginePut e key value false syncOk).2.repl = e.repl
      ∧ (enginePut e key value false syncOk).2.wal = e.wal)
    ∧ ((engineDelete e key false syncOk).1 = some WalError.appendFailed
      ∧ (engineDelete e key false syncOk).2.store = e.store
      ∧ (engineDelete e key false syncOk).2.repl = e.repl
      ∧ (engineDelete e key false syncOk).2.wal = e.wal)
    ∧ (e.cfg.SyncWrites = true →
      (enginePut e key value true false).1 = some WalError.syncFailed
      ∧ (enginePut e key value true false).2.store = e.store
      ∧ (enginePut e key value true false).2.repl = e.repl)
    ∧ (e.cfg.SyncWrites = true →
      (engineDelete e key true false).1 = some WalError.syncFailed
      ∧ (engineDelete e key true false).2.store = e.store
      ∧ (engineDelete e key true false).2.repl = e.repl) := by
  refine ⟨⟨rfl, rfl, rfl, rfl⟩, ⟨rfl, rfl, rfl, rfl⟩, ?_, ?_⟩
  · intro hsw
    simp [enginePut, newOp, hsw]
  · intro hsw
    simp [engineDelete, newOp, hsw]

/-- A sync-writes engine used to witness the C2 failure paths. -/
def c2Engine : Engine := newEngine ⟨"A", true, true⟩ []

theorem c2_wal_failure_aborts_write_witness :
    (enginePut c2Engine "k" [1] false true).1 = some WalError.appendFailed
    ∧ (engineDelete c2Engine "k" false true).1 = some WalError.appendFailed
    ∧ (enginePut c2Engine "k" [1] true false).1 = some WalError.syncFailed
    ∧ (engineDelete c2Engine "k" true false).1 = some WalError.syncFailed := by
  have h := c2_wal_failure_aborts_write c2Engine "k" [1] true
  exact ⟨h.1.1, h.2.1.1, (h.2.2.1 rfl).1, (h.2.2.2 rfl).1⟩

/-- The replicated delete used by the C1 counterexample. -/
def c1Op : Operation := ⟨OpType.OpDelete, "k", [], ⟨"B", 1⟩⟩

/-- The engine of the C1 counterexample: node "A" over an empty WAL after
receiving the replicated delete `c1Op` once. -/
def c1Engine : Engine :=
  (applyReplica (newEngine ⟨"A", false, false⟩ []) c1Op true).2

/-- C1 counterexample: the Store holds a tombstoned record for "k" whose
Version equals the re-delivered operation's Version, yet re-delivering it
appends to the WAL again (the claim says nothing is appended). -/
theorem c1_counterexample :
    c1Engine.store "k" = some ⟨[], ⟨"B", 1⟩, true⟩
    ∧ (Record.mk [] ⟨"B", 1⟩ true).Version.Equal c1Op.Version = true
    ∧ c1Engine.wal = [c1Op]
    ∧ (applyReplica c1Engine c1Op true).1 = none
    ∧ (applyReplica c1Engine c1Op true).2.wal = [c1Op, c1Op] :=
  ⟨rfl, rfl, rfl, rfl, rfl⟩

/-- C1 (amended): the stale/duplicate drop of Engine.ApplyReplica applies
exactly when Store.Get reports a record — hence a live, non-tombstoned one
— whose Version is equal to or newer than the operation's: then the call
is a successful no-op (no WAL append, no mutation, no error).  Otherwise,
including whenever the stored record is tombstoned, the operation is
appended to the WAL and applied. -/
theorem c1_stale_replica_noop (e : Engine) (op : Operation) (appendOk : Bool) :
    (∀ r, memGet e.store op.Key = some r →
      (r.Version.GreaterThan op.Version || r.Version.Equal op.Version) = true →
      applyReplica e op appendOk = (none, e))
    ∧ ((∀ r, memGet e.store op.Key = some r →
        (r.Version.GreaterThan op.Version || r.Version.Equal op.Version) = false) →
      applyReplica e op true =
        (none, applyNoWal { e with wal := e.wal ++ [op] } op)) := by
  constructor
  · intro r hr hge
    unfold applyReplica
    simp only [hr, hge, if_true]
  · intro hall
    unfold applyReplica
    cases hmg : memGet e.store op.Key with
    | none => simp [applyReplicaAppend]
    | some r => simp [hall r hmg, applyReplicaAppend]

/-- The engine witnessing the C1 drop branch: node "A" after receiving a
replicated put of "k" from node "B". -/
def c1wOp : Operation := ⟨OpType.OpPut, "k", [7], ⟨"B", 2⟩⟩

def c1wEngine : Engine :=
  (applyReplica (newEngine ⟨"A", false, false⟩ []) c1wOp true).2

theorem c1_stale_replica_noop_witness :
    applyReplica c1wEngine c1wOp true = (none, c1wEngine)
    ∧ applyReplica (newEngine ⟨"A", false, false⟩ []) c1wOp true =
      (none, applyNoWal
        { newEngine ⟨"A", false, false⟩ [] with
            wal := (newEngine ⟨"A", false, false⟩ []).wal ++ [c1wOp] } c1wOp) := by
  constructor
  · exact (c1_stale_replica_noop c1wEngine c1wOp true).1
      ⟨[7], ⟨"B", 2⟩, false⟩ rfl (by decide)
  · exact (c1_stale_replica_noop (newEngine ⟨"A", false, false⟩ []) c1wOp true).2
      (fun r hr => by simp [newEngine, memGet] at hr)

/-- If every existing record for the key is strictly older, MemStore.Put
stores the new record. -/
theorem memPut_lands (key : String) (record : Record) (s : StoreMap)
    (h : ∀ ex, s key = some ex → record.Version.GreaterThan ex.Version = true) :
    memPut key record s key = some record := by
  unfold memPut
  cases hs : s key with
  | none => simp
  | some ex => simp [h ex hs]

/-- MemStore.Put leaves every other key untouched. -/
theorem memPut_other (k key : String) (hne : k ≠ key) (record : Record)
    (s : StoreMap) : memPut key record s k = s k := by
  unfold memPut
  cases s key with
  | none => simp [hne]
  | some ex => by_cases hgt : record.Version.GreaterThan ex.Version <;> simp [hne, hgt]

/-- The Record that Engine.applyNoWal writes for an operation. -/
def opRecord (op : Operation) : Record :=
  match op.Typ with
  | OpType.OpPut => ⟨op.Value, op.Version, false⟩
  | OpType.OpDelete => ⟨[], op.Version, true⟩

theorem applyOpStore_eq (s : StoreMap) (op : Operation) :
    applyOpStore s op = memPut op.Key (opRecord op) s := by
  cases h : op.Typ <;> simp [applyOpStore, opRecord, h]

theorem opRecord_version (op : Operation) : (opRecord op).Version = op.Version := by
  cases h : op.Typ <;> simp [opRecord, h]

/-- C10 counterexample engine: node "A" holding a record for "k" that was
written by node "B" with Seq 5 and received via replication. -/
def c10Engine : Engine :=
  (applyReplica (newEngine ⟨"A", false, false⟩ [])
    ⟨OpType.OpPut, "k", [1], ⟨"B", 5⟩⟩ true).2

/-- C10 counterexample: a successful local Put of [2] is silently rejected
by the Store (its fresh Version ("A",1) is older than the stored ("B",5)),
so the immediately following Get still returns the old value [1]. -/
theorem c10_counterexample :
    (enginePut c10Engine "k" [2] true true).1 = none
    ∧ engineGet (enginePut c10Engine "k" [2] true true).2 "k" = some [1]
    ∧ engineGet (enginePut c10Engine "k" [2] true true).2 "k" ≠ some [2] :=
  ⟨rfl, rfl, by decide⟩

/-- C10 (amended): read-your-own-write holds whenever the freshly
allocated Version (NodeID, seq+1) is strictly newer than whatever record
the Store currently holds for the key — e.g. on a key only ever written
locally during this engine's lifetime.  Then a successful Put(key, value)
followed by Get(key) returns value. -/
theorem c10_put_then_get (e : Engine) (key : String) (value : List Nat)
    (h : ∀ r, e.store key = some r →
      (Version.mk e.cfg.NodeID (nextSeq e.seq)).GreaterThan r.Version = true) :
    (enginePut e key value true true).1 = none
    ∧ engineGet (enginePut e key value true true).2 key = some value := by
  have hland : memPut key ⟨value, ⟨e.cfg.NodeID, nextSeq e.seq⟩, false⟩ e.store key
      = some ⟨value, ⟨e.cfg.NodeID, nextSeq e.seq⟩, false⟩ :=
    memPut_lands _ _ _ (fun ex hex => h ex hex)
  constructor
  · cases hb : e.cfg.EnableReplica <;> simp [enginePut, newOp, applyNoWal, hb]
  · cases hb : e.cfg.EnableReplica <;>
      simp [enginePut, newOp, applyNoWal, applyOpStore, engineGet, memGet,
        hb, hland, Record.IsDeleted]

/-- Fresh single-node engine used as the C10 witness. -/
def c10wEngine : Engine := newEngine ⟨"A", false, false⟩ []

theorem c10_put_then_get_witness :
    (enginePut c10wEngine "k" [9] true true).1 = none
    ∧ engineGet (enginePut c10wEngine "k" [9] true true).2 "k" = some [9] :=
  c10_put_then_get c10wEngine "k" [9]
    (fun r hr => by simp [c10wEngine, newEngine] at hr)

/-- C8: a Delete whose fresh Version is strictly newer than the stored
record (i.e. the delete takes effect and nothing supersedes it) makes Get
report not-found while the Store keeps a Record with Tombstone = true
carrying the delete's Version. -/
theorem c8_delete_tombstone (e : Engine) (key : String)
    (h : ∀ r, e.store key = some r →
      (Version.mk e.cfg.NodeID (nextSeq e.seq)).GreaterThan r.Version = true) :
    (engineDelete e key true true).1 = none
    ∧ engineGet (engineDelete e key true true).2 key = none
    ∧ (engineDelete e key true true).2.store key =
      some ⟨[], ⟨e.cfg.NodeID, nextSeq e.seq⟩, true⟩ := by
  have hland : memPut key ⟨[], ⟨e.cfg.NodeID, nextSeq e.seq⟩, true⟩ e.store key
      = some ⟨[], ⟨e.cfg.NodeID, nextSeq e.seq⟩, true⟩ :=
    memPut_lands _ _ _ (fun ex hex => h ex hex)
  refine ⟨?_, ?_, ?_⟩ <;>
    (cases hb : e.cfg.EnableReplica <;>
      simp [engineDelete, newOp, applyNoWal, applyOpStore, engineGet, memGet,
        hb, hland, Record.IsDeleted])

/-- Engine witnessing C8: node "A" after a local Put of "k". -/
def c8wEngine : Engine :=
  (enginePut (newEngine ⟨"A", false, false⟩ []) "k" [1] true true).2

theorem c8_delete_tombstone_witness :
    (engineDelete c8wEngine "k" true true).1 = none
    ∧ engineGet (engineDelete c8wEngine "k" true true).2 "k" = none
    ∧ (engineDelete c8wEngine "k" true true).2.store "k" =
      some ⟨[], ⟨"A", 2⟩, true⟩ := by
  have h := c8_delete_tombstone c8wEngine "k" (fun r hr => by
    have h0 : (some (Record.mk [1] ⟨"A", 1⟩ false) : Option Record) = some r := hr
    cases h0
    decide)
  exact h

/-- The operation already in the WAL before the restart in C4. -/
def c4ReplayOp : Operation := ⟨OpType.OpPut, "k", [7], ⟨"A", 5⟩⟩

/-- Engine built over the non-empty WAL [c4ReplayOp] (a crash-restart of
node "A" that had issued Seq 5). -/
def c4Engine : Engine := newEngine ⟨"A", false, false⟩ [c4ReplayOp]

/-- C4 failing-input evidence: WAL replay rebuilds only the Store and
leaves the sequence counter at 0, so the first local write after restart
is stamped Seq 1 — not strictly greater than the previously issued Seq 5 —
and is even rejected by the Store, so Get still sees the old value. -/
theorem c4_seq_not_restored :
    c4Engine.seq = 0
    ∧ (enginePut c4Engine "k" [8] true true).2.wal
      = [c4ReplayOp, ⟨OpType.OpPut, "k", [8], ⟨"A", 1⟩⟩]
    ∧ ¬ 5 < (Operation.mk OpType.OpPut "k" [8] ⟨"A", 1⟩).Version.Seq
    ∧ engineGet (enginePut c4Engine "k" [8] true true).2 "k" = some [7] :=
  ⟨rfl, rfl, by decide, rfl⟩

/-- The operations applied so far that concern key `k`. -/
def opsFor (ops : List Operation) (k : String) : List Operation :=
  ops.filter (fun op => op.Key == k)

/-- The Store state obtained by folding operations through
Engine.applyNoWal, starting from the empty map (this is exactly what
local writes, ApplyReplica and WAL replay all funnel through). -/
def foldStore (ops : List Operation) : StoreMap :=
  ops.foldl applyOpStore (fun _ => none)

/-- The per-key invariant: the Store holds a record for `k` exactly when
some applied operation concerns `k`, and that record carries the highest
Version among all of them. -/
def StoreTracks (s : StoreMap) (ops : List Operation) (k : String) : Prop :=
  match s k with
  | none => opsFor ops k = []
  | some r =>
    (∃ op ∈ opsFor ops k, op.Version = r.Version)
    ∧ ∀ op ∈ opsFor ops k, op.Version.GreaterThan r.Version = false

theorem storeTracks_step (s : StoreMap) (acc : List Operation)
    (op : Operation) (k : String) (h : StoreTracks s acc k) :
    StoreTracks (applyOpStore s op) (acc ++ [op]) k := by
  rw [applyOpStore_eq]
  by_cases hk : op.Key = k
  · subst hk
    have hfilter : opsFor (acc ++ [op]) op.Key = opsFor acc op.Key ++ [op] := by
      simp [opsFor, List.filter_append]
    unfold StoreTracks at h ⊢
    rw [hfilter]
    cases hs : s op.Key with
    | none =>
      rw [hs] at h
      have hmp : memPut op.Key (opRecord op) s op.Key = some (opRecord op) := by
        unfold memPut; rw [hs]; simp
      rw [hmp, h]
      refine ⟨⟨op, by simp, (opRecord_version op).symm⟩, ?_⟩
      intro op' hop'
      have : op' = op := by simpa using hop'
      subst this
      rw [opRecord_version]
      exact Version.gt_irrefl _
    | some r0 =>
      rw [hs] at h
      obtain ⟨⟨w, hw, hwv⟩, hall⟩ := h
      by_cases hgt : (opRecord op).Version.GreaterThan r0.Version = true
      · have hmp : memPut op.Key (opRecord op) s op.Key = some (opRecord op) := by
          unfold memPut; rw [hs]; simp [hgt]
        rw [hmp]
        refine ⟨⟨op, by simp, (opRecord_version op).symm⟩, ?_⟩
        intro op' hop'
        rcases (by simpa using hop' :
            op' ∈ opsFor acc op.Key ∨ op' = op) with h1 | h1
        · have h2 := hall op' h1
          rw [opRecord_version] at hgt ⊢
          by_cases h3 : op'.Version.GreaterThan op.Version = true
          · rw [Version.gt_trans h3 hgt] at h2
            exact absurd h2 (by simp)
          · simpa using h3
        · subst h1
          rw [opRecord_version]
          exact Version.gt_irrefl _
      · have hmp : memPut op.Key (opRecord op) s op.Key = some r0 := by
          unfold memPut; rw [hs]
          simp only [Bool.not_eq_true] at hgt
          simp [hgt]
          exact hs
        rw [hmp]
        refine ⟨⟨w, by simp [hw], hwv⟩, ?_⟩
        intro op' hop'
        rcases (by simpa using hop' :
            op' ∈ opsFor acc op.Key ∨ op' = op) with h1 | h1
        · exact hall op' h1
        · rw [h1, ← opRecord_version op]
          simpa using hgt
  · have hne : k ≠ op.Key := fun he => hk he.symm
    have hmp := memPut_other k op.Key hne (opRecord op) s
    have hfilter : opsFor (acc ++ [op]) k = opsFor acc k := by
      simp [opsFor, List.filter_append, hk]
    unfold StoreTracks at h ⊢
    rw [hmp, hfilter]
    exact h

theorem foldStore_tracks (k : String) :
    ∀ (ops acc : List Operation) (s : StoreMap),
      StoreTracks s acc k →
      StoreTracks (ops.foldl applyOpStore s) (acc ++ ops) k := by
  intro ops
  induction ops with
  | nil => intro acc s h; simpa using h
  | cons op rest ih =>
    intro acc s h
    have h2 := ih (acc ++ [op]) (applyOpStore s op) (storeTracks_step s acc op k h)
    simpa [List.append_assoc] using h2

/-- C3: for every sequence of applied operations (local Put/Delete,
ApplyReplica, replay — all of which funnel through applyNoWal) and every
key, the Store holds at most one Record (it is a map), that Record exists
exactly when some applied operation concerns the key, and it carries the
highest Version among them (last-writer-wins by Version); moreover the
Store itself rejects any Put whose Version is not strictly newer than the
existing record. -/
theorem c3_store_invariant (ops : List Operation) (k : String) :
    StoreTracks (foldStore ops) ops k
    ∧ ∀ (s : StoreMap) (key : String) (record ex : Record),
      s key = some ex → record.Version.GreaterThan ex.Version = false →
      memPut key record s = s := by
  constructor
  · have h := foldStore_tracks k ops [] (fun _ => none)
      (by simp [StoreTracks, opsFor])
    simpa [foldStore] using h
  · intro s key record ex hex hgt
    unfold memPut
    rw [hex]
    simp [hgt]

/-- Operations for the C3 witness: two puts for "k" from different nodes. -/
def c3Ops : List Operation :=
  [⟨OpType.OpPut, "k", [1], ⟨"A", 1⟩⟩, ⟨OpType.OpPut, "k", [2], ⟨"B", 3⟩⟩]

theorem c3_store_invariant_witness :
    StoreTracks (foldStore c3Ops) c3Ops "k"
    ∧ memPut "k" ⟨[9], ⟨"A", 2⟩, false⟩ (foldStore c3Ops) = foldStore c3Ops := by
  have h := c3_store_invariant c3Ops "k"
  exact ⟨h.1, h.2 (foldStore c3Ops) "k" ⟨[9], ⟨"A", 2⟩, false⟩
    ⟨[2], ⟨"B", 3⟩, false⟩ rfl (by decide)⟩

/-- UTF-8 encoding of one code point, as Go's []byte(s) produces. -/
def utf8Bytes (c : Nat) : List Nat :=
  if c < 128 then [c]
  else if c < 2048 then [192 + c / 64, 128 + c % 64]
  else if c < 65536 then [224 + c / 4096, 128 + (c / 64) % 64, 128 + c % 64]
  else [240 + c / 262144, 128 + (c / 4096) % 64, 128 + (c / 64) % 64, 128 + c % 64]

/-- The bytes of a Go string. -/
def strBytes (s : String) : List Nat :=
  s.data.foldr (fun c acc => utf8Bytes c.toNat ++ acc) []

/-- 32-bit FNV-1a over the string's bytes (source: hashID, hash/fnv
New32a: offset basis 2166136261, prime 16777619, xor-then-multiply,
truncated to uint32). -/
def hashID (s : String) : Nat :=
  (strBytes s).foldl (fun h b => ((h ^^^ b) * 16777619) % 4294967296) 2166136261

/-- NodeID identifies a node on the ring (source: NodeID). -/
abbrev NodeID := String

/-- A virtual node position on the ring (source: entry struct). -/
structure RingEntry where
  hash : Nat
  id : NodeID
deriving DecidableEq, Repr

/-- The Go zero entry, standing in for out-of-range indexing. -/
def dfltEntry : RingEntry := ⟨0, ""⟩

/-- Go's sort.Search binary-search loop on the half-open interval
[i, j) (source: sort.Search as invoked by GetPrimary/GetReplicas).  The
first argument is a structural-recursion bound: the loop shrinks the
interval every iteration, so any bound of at least j - i (callers pass
the full ring length) never runs out and the function equals Go's loop. -/
def goSearchAux (f : Nat → Bool) : Nat → Nat → Nat → Nat
  | 0, i, _ => i
  | fuel + 1, i, j =>
    if i < j then
      if f ((i + j) / 2) then goSearchAux f fuel i ((i + j) / 2)
      else goSearchAux f fuel ((i + j) / 2 + 1) j
    else i

/-- sort.Search(n, f). -/
def goSearch (n : Nat) (f : Nat → Bool) : Nat := goSearchAux f n 0 n

/-- ring.RemoveNode: drop every virtual position of the physical node,
preserving the order of the rest (source: ring.RemoveNode). -/
def removeNode (entries : List RingEntry) (id : NodeID) : List RingEntry :=
  entries.filter (fun e => e.id != id)

/-- The binary search both GetPrimary and GetReplicas run: first index
whose entry hash is at least the key hash (source: the sort.Search call
with predicate entries[i].hash >= keyHash). -/
def searchStart (entries : List RingEntry) (kh : Nat) : Nat :=
  goSearch entries.length (fun i => decide (kh ≤ (entries.getD i dfltEntry).hash))

/-- The cyclic wraparound applied to the search result (source: the
`if idx == len(r.entries) { idx = 0 }` step). -/
def wrapStart (entries : List RingEntry) (kh : Nat) : Nat :=
  if searchStart entries kh = entries.length then 0 else searchStart entries kh

/-- ring.GetPrimary (source: ring.GetPrimary). -/
def getPrimary (entries : List RingEntry) (key : String) : NodeID :=
  if entries.length = 0 then ""
  else (entries.getD (wrapStart entries (hashID key)) dfltEntry).id

/-- One iteration of the GetReplicas collection loop: append the entry's
physical node unless already seen or the target count is reached
(source: the loop body of ring.GetReplicas). -/
def collectStep (n : Nat) (acc : List NodeID) (id : NodeID) : List NodeID :=
  if acc.length < n ∧ id ∉ acc then acc ++ [id] else acc

/-- The physical node ids in the order the GetReplicas loop visits them:
all virtual positions, starting at the search position, cyclically
(source: the `idx := (start + i) % len(r.entries)` indexing). -/
def rotIds (entries : List RingEntry) (start : Nat) : List NodeID :=
  (List.range entries.length).map
    (fun i => (entries.getD ((start + i) % entries.length) dfltEntry).id)

/-- ring.GetReplicas (source: ring.GetReplicas). -/
def getReplicas (entries : List RingEntry) (key : String) (n : Nat) :
    List NodeID :=
  if entries.length = 0 ∨ n = 0 then []
  else (rotIds entries (wrapStart entries (hashID key))).foldl (collectStep n) []

theorem goSearchAux_spec (f : Nat → Bool) :
    ∀ (fuel i j : Nat), i ≤ j → j - i ≤ fuel →
      i ≤ goSearchAux f fuel i j ∧ goSearchAux f fuel i j ≤ j
      ∧ (goSearchAux f fuel i j < j → f (goSearchAux f fuel i j) = true)
      ∧ (i < goSearchAux f fuel i j → f (goSearchAux f fuel i j - 1) = false) := by
  intro fuel
  induction fuel with
  | zero =>
    intro i j hij hf
    have hji : i = j := by omega
    subst hji
    exact ⟨Nat.le_refl i, Nat.le_refl i, fun hc => absurd hc (Nat.lt_irrefl i),
      fun hc => absurd hc (Nat.lt_irrefl i)⟩
  | succ fuel ih =>
    intro i j hij hf
    by_cases h : i < j
    · have hm1 : i ≤ (i + j) / 2 := by omega
      have hm2 : (i + j) / 2 < j := by omega
      cases hfm : f ((i + j) / 2) with
      | true =>
        have hred : goSearchAux f (fuel + 1) i j
            = goSearchAux f fuel i ((i + j) / 2) := by
          simp [goSearchAux, h, hfm]
        rw [hred]
        obtain ⟨h1, h2, h3, h4⟩ := ih i ((i + j) / 2) hm1 (by omega)
        refine ⟨h1, h2.trans (Nat.le_of_lt hm2), ?_, h4⟩
        intro _
        rcases Nat.lt_or_ge (goSearchAux f fuel i ((i + j) / 2)) ((i + j) / 2)
          with hlt | hge
        · exact h3 hlt
        · rw [Nat.le_antisymm h2 hge]
          exact hfm
      | false =>
        have hred : goSearchAux f (fuel + 1) i j
            = goSearchAux f fuel ((i + j) / 2 + 1) j := by
          simp [goSearchAux, h, hfm]
        rw [hred]
        obtain ⟨h1, h2, h3, h4⟩ := ih ((i + j) / 2 + 1) j (by omega) (by omega)
        refine ⟨by omega, h2, h3, ?_⟩
        intro _
        rcases Nat.lt_or_ge ((i + j) / 2 + 1) (goSearchAux f fuel ((i + j) / 2 + 1) j)
          with hlt | hge
        · exact h4 hlt
        · rw [Nat.le_antisymm hge h1]
          simpa using hfm
    · have hred : goSearchAux f (fuel + 1) i j = i := by simp [goSearchAux, h]
      rw [hred]
      exact ⟨Nat.le_refl i, hij, fun hc => absurd hc h,
        fun hc => absurd hc (Nat.lt_irrefl i)⟩

/-- Least-index characterisation of sort.Search under a monotone
predicate. -/
theorem goSearch_spec (f : Nat → Bool) (n : Nat)
    (mono : ∀ a b, a ≤ b → b < n → f a = true → f b = true) :
    goSearch n f ≤ n
    ∧ (goSearch n f < n → f (goSearch n f) = true)
    ∧ ∀ k, k < goSearch n f → f k = false := by
  obtain ⟨h1, h2, h3, h4⟩ := goSearchAux_spec f n 0 n (Nat.zero_le n) (by omega)
  refine ⟨h2, h3, ?_⟩
  intro k hk
  have hpos : 0 < goSearch n f := Nat.lt_of_le_of_lt (Nat.zero_le k) hk
  have hlast : f (goSearch n f - 1) = false := h4 hpos
  cases hfk : f k with
  | false => rfl
  | true =>
    have hkle : k ≤ goSearch n f - 1 := Nat.le_pred_of_lt hk
    have hlt : goSearch n f - 1 < n :=
      Nat.lt_of_lt_of_le (Nat.sub_lt hpos Nat.one_pos) h2
    rw [mono k (goSearch n f - 1) hkle hlt hfk] at hlast
    exact absurd hlast (by simp)

theorem collect_length_le (n : Nat) :
    ∀ (ids acc : List NodeID), acc.length ≤ n →
      (ids.foldl (collectStep n) acc).length ≤ n := by
  intro ids
  induction ids with
  | nil => intro acc h; simpa using h
  | cons id rest ih =>
    intro acc h
    by_cases hc : acc.length < n ∧ id ∉ acc
    · have hstep : collectStep n acc id = acc ++ [id] := by simp [collectStep, hc]
      rw [List.foldl_cons, hstep]
      exact ih _ (by simpa using hc.1)
    · have hstep : collectStep n acc id = acc := by simp [collectStep, hc]
      rw [List.foldl_cons, hstep]
      exact ih _ h

theorem collect_nodup (n : Nat) :
    ∀ (ids acc : List NodeID), acc.Nodup →
      (ids.foldl (collectStep n) acc).Nodup := by
  intro ids
  induction ids with
  | nil => intro acc h; simpa using h
  | cons id rest ih =>
    intro acc h
    by_cases hc : acc.length < n ∧ id ∉ acc
    · have hstep : collectStep n acc id = acc ++ [id] := by simp [collectStep, hc]
      rw [List.foldl_cons, hstep]
      exact ih _ (by simp [List.nodup_append, h, hc.2])
    · have hstep : collectStep n acc id = acc := by simp [collectStep, hc]
      rw [List.foldl_cons, hstep]
      exact ih _ h

theorem collect_head (n : Nat) :
    ∀ (ids acc : List NodeID), acc ≠ [] →
      (ids.foldl (collectStep n) acc).head? = acc.head? := by
  intro ids
  induction ids with
  | nil => intro acc _; simp
  | cons id rest ih =>
    intro acc h
    by_cases hc : acc.length < n ∧ id ∉ acc
    · have hstep : collectStep n acc id = acc ++ [id] := by simp [collectStep, hc]
      rw [List.foldl_cons, hstep, ih _ (by simp)]
      cases acc with
      | nil => exact absurd rfl h
      | cons a t => simp
    · have hstep : collectStep n acc id = acc := by simp [collectStep, hc]
      rw [List.foldl_cons, hstep]
      exact ih _ h

theorem collect_complete (n : Nat) :
    ∀ (ids acc : List NodeID),
      acc.length + (ids.filter (fun x => decide (x ∉ acc))).toFinset.card ≤ n →
      ∀ x, x ∈ acc ∨ x ∈ ids → x ∈ ids.foldl (collectStep n) acc := by
  intro ids
  induction ids with
  | nil =>
    intro acc _ x hx
    rcases hx with hx | hx
    · simpa using hx
    · simp at hx
  | cons id rest ih =>
    intro acc hinv x hx
    by_cases hid : id ∈ acc
    · have hstep : collectStep n acc id = acc := by simp [collectStep, hid]
      have hfe : (id :: rest).filter (fun x => decide (x ∉ acc)) =
          rest.filter (fun x => decide (x ∉ acc)) := by
        simp [List.filter_cons, hid]
      rw [hfe] at hinv
      rw [List.foldl_cons, hstep]
      refine ih acc hinv x ?_
      rcases hx with hx | hx
      · exact Or.inl hx
      · rcases List.mem_cons.mp hx with rfl | hx
        · exact Or.inl hid
        · exact Or.inr hx
    · have hfe : (id :: rest).filter (fun x => decide (x ∉ acc)) =
          id :: rest.filter (fun x => decide (x ∉ acc)) := by
        simp [List.filter_cons, hid]
      rw [hfe, List.toFinset_cons] at hinv
      set F := (rest.filter (fun x => decide (x ∉ acc))).toFinset with hF
      have hcard : (insert id F).card = (F.erase id).card + 1 := by
        by_cases hmem : id ∈ F
        · rw [Finset.insert_eq_self.mpr hmem]
          exact (Finset.card_erase_add_one hmem).symm
        · rw [Finset.erase_eq_of_not_mem hmem, Finset.card_insert_of_not_mem hmem]
      have hlen : acc.length < n := by omega
      have hstep : collectStep n acc id = acc ++ [id] := by
        simp [collectStep, hlen, hid]
      have hsub : rest.filter (fun x => decide (x ∉ acc ++ [id])) =
          (rest.filter (fun x => decide (x ∉ acc))).filter
            (fun x => decide (x ≠ id)) := by
        rw [List.filter_filter]
        refine (List.filter_congr ?_).symm
        intro x _
        by_cases h1 : x ∈ acc <;> by_cases h2 : x = id <;> simp [h1, h2]
      have hTF : (rest.filter (fun x => decide (x ∉ acc ++ [id]))).toFinset
          = F.erase id := by
        rw [hsub, hF]
        ext y
        simp only [List.mem_toFinset, List.mem_filter, Finset.mem_erase,
          decide_eq_true_iff]
        tauto
      have hinv' : (acc ++ [id]).length +
          (rest.filter (fun x => decide (x ∉ acc ++ [id]))).toFinset.card ≤ n := by
        rw [hTF]
        simp only [List.length_append, List.length_singleton]
        omega
      rw [List.foldl_cons, hstep]
      refine ih (acc ++ [id]) hinv' x ?_
      rcases hx with hx | hx
      · exact Or.inl (by simp [hx])
      · rcases List.mem_cons.mp hx with rfl | hx
        · exact Or.inl (by simp)
        · exact Or.inr hx

theorem rotIds_eq_rotate (entries : List RingEntry) (start : Nat) :
    rotIds entries start = (entries.map (fun e => e.id)).rotate start := by
  rcases Nat.eq_zero_or_pos entries.length with hlen | hlen
  · have hnil : entries = [] := List.length_eq_zero.mp hlen
    subst hnil
    simp [rotIds]
  · apply List.ext_getElem
    · simp [rotIds]
    · intro i h1 h2
      have hi : i < entries.length := by simpa [rotIds] using h1
      have hmod : (start + i) % entries.length < entries.length :=
        Nat.mod_lt _ hlen
      rw [List.getElem_rotate]
      simp only [rotIds, List.getElem_map, List.getElem_range, List.length_map]
      have hmod2 : (i + start) % entries.length < entries.length :=
        Nat.mod_lt _ hlen
      rw [← List.getD_eq_getElem entries dfltEntry hmod2, Nat.add_comm start i]

theorem searchStart_le (entries : List RingEntry) (kh : Nat) :
    searchStart entries kh ≤ entries.length :=
  (goSearchAux_spec _ entries.length 0 entries.length (Nat.zero_le _)
    (by omega)).2.1

theorem wrapStart_lt (entries : List RingEntry) (kh : Nat)
    (h : entries.length ≠ 0) : wrapStart entries kh < entries.length := by
  unfold wrapStart
  by_cases he : searchStart entries kh = entries.length
  · simp only [he, if_true]
    omega
  · simp only [he, if_false]
    exact Nat.lt_of_le_of_ne (searchStart_le entries kh) he

/-- The shape of GetReplicas: bounded length, distinct physical nodes,
primary-first, and exhaustive when the ring is small. -/
theorem getReplicas_shape (entries : List RingEntry) (key : String) (n : Nat) :
    (getReplicas entries key n).length ≤ n
    ∧ (getReplicas entries key n).Nodup
    ∧ (getReplicas entries key n ≠ [] →
        (getReplicas entries key n).head? = some (getPrimary entries key))
    ∧ ((entries.map (fun e => e.id)).toFinset.card < n →
        ∀ x ∈ entries.map (fun e => e.id), x ∈ getReplicas entries key n) := by
  by_cases hguard : entries.length = 0 ∨ n = 0
  · have hrep : getReplicas entries key n = [] := by
      unfold getReplicas
      rw [if_pos hguard]
    rcases hguard with h0 | h0
    · have hnil : entries = [] := List.length_eq_zero.mp h0
      subst hnil
      simp [hrep]
    · subst h0
      simp [hrep]
  · push_neg at hguard
    obtain ⟨hlen, hn⟩ := hguard
    have hslt : wrapStart entries (hashID key) < entries.length :=
      wrapStart_lt entries _ hlen
    have hrep : getReplicas entries key n =
        (rotIds entries (wrapStart entries (hashID key))).foldl (collectStep n) [] := by
      unfold getReplicas
      rw [if_neg (by push_neg; exact ⟨hlen, hn⟩)]
    obtain ⟨k, hk⟩ := Nat.exists_eq_succ_of_ne_zero hlen
    have hrot : rotIds entries (wrapStart entries (hashID key)) =
        (entries.getD (wrapStart entries (hashID key)) dfltEntry).id ::
        (List.range k).map (fun i =>
          (entries.getD ((wrapStart entries (hashID key) + (i + 1))
            % entries.length) dfltEntry).id) := by
      rw [rotIds, hk, List.range_succ_eq_map, List.map_cons, List.map_map]
      rw [Nat.mod_eq_of_lt (hk ▸ hslt)]
      simp [Function.comp_def]
    have hprim : getPrimary entries key =
        (entries.getD (wrapStart entries (hashID key)) dfltEntry).id := by
      unfold getPrimary
      rw [if_neg hlen]
    refine ⟨?_, ?_, ?_, ?_⟩
    · rw [hrep]
      exact collect_length_le n _ [] (Nat.zero_le n)
    · rw [hrep]
      exact collect_nodup n _ [] List.nodup_nil
    · intro _
      rw [hrep, hrot, List.foldl_cons]
      have hfirst : collectStep n []
          (entries.getD (wrapStart entries (hashID key)) dfltEntry).id =
          [(entries.getD (wrapStart entries (hashID key)) dfltEntry).id] := by
        simp [collectStep, Nat.pos_of_ne_zero hn]
      rw [hfirst, collect_head n _ _ (by simp), hprim]
      rfl
    · intro hcard x hx
      rw [hrep]
      refine collect_complete n _ [] ?_ x (Or.inr ?_)
      · have hfid : (rotIds entries (wrapStart entries (hashID key))).filter
            (fun x => decide (x ∉ ([] : List NodeID))) =
            rotIds entries (wrapStart entries (hashID key)) := by
          apply List.filter_eq_self.mpr
          intro a _
          simp
        rw [hfid]
        have htf : (rotIds entries (wrapStart entries (hashID key))).toFinset =
            (entries.map (fun e => e.id)).toFinset := by
          apply List.toFinset_eq_of_perm
          rw [rotIds_eq_rotate]
          exact List.rotate_perm _ _
        rw [List.length_nil, htf]
        omega
      · rw [rotIds_eq_rotate]
        exact (List.rotate_perm _ _).mem_iff.mpr hx

/-- C6: GetReplicas(key, n) returns at most n NodeIDs, pairwise-distinct
physical nodes; whenever non-empty its first element equals
GetPrimary(key); and when the ring has fewer than n distinct physical
nodes, all of them are returned.  (The result is a pure function of the
ring state and key, hence deterministic.) -/
theorem c6_replicas_shape (entries : List RingEntry) (key : String) (n : Nat) :
    (getReplicas entries key n).length ≤ n
    ∧ (getReplicas entries key n).Nodup
    ∧ (getReplicas entries key n ≠ [] →
        (getReplicas entries key n).head? = some (getPrimary entries key))
    ∧ ((entries.map (fun e => e.id)).toFinset.card < n →
        ∀ x ∈ entries.map (fun e => e.id), x ∈ getReplicas entries key n) :=
  getReplicas_shape entries key n

/-- Two-node ring used to witness C6. -/
def c6Entries : List RingEntry := [⟨1, "A"⟩, ⟨2, "B"⟩]

theorem c6_replicas_shape_witness :
    (getReplicas c6Entries "foo" 3).length ≤ 3
    ∧ (getReplicas c6Entries "foo" 3).Nodup
    ∧ (getReplicas c6Entries "foo" 3).head? = some (getPrimary c6Entries "foo")
    ∧ ∀ x ∈ c6Entries.map (fun e => e.id), x ∈ getReplicas c6Entries "foo" 3 := by
  have h := c6_replicas_shape c6Entries "foo" 3
  exact ⟨h.1, h.2.1, h.2.2.1 (by decide), h.2.2.2 (by decide)⟩

theorem find?_of_first {α : Type} (p : α → Bool) (d : α) :
    ∀ (l : List α) (r : Nat), r < l.length →
      (∀ k, k < r → p (l.getD k d) = false) → p (l.getD r d) = true →
      l.find? p = some (l.getD r d) := by
  intro l
  induction l with
  | nil => intro r hr; simp at hr
  | cons a t ih =>
    intro r hr hlow hp
    cases r with
    | zero =>
      rw [List.getD_cons_zero] at hp
      rw [List.find?_cons_of_pos _ hp, List.getD_cons_zero]
    | succ r' =>
      have ha : p a = false := by
        have h0 := hlow 0 (Nat.succ_pos r')
        rwa [List.getD_cons_zero] at h0
      rw [List.getD_cons_succ] at hp ⊢
      rw [List.find?_cons_of_neg _ (by simp [ha])]
      refine ih r' (by simpa using hr) (fun k hk => ?_) hp
      have hk1 := hlow (k + 1) (Nat.succ_lt_succ hk)
      rwa [List.getD_cons_succ] at hk1

theorem find?_filter_some {α : Type} (p q : α → Bool) :
    ∀ (l : List α) (e : α), l.find? p = some e → q e = true →
      (l.filter q).find? p = some e := by
  intro l
  induction l with
  | nil => intro e he _; simp at he
  | cons a t ih =>
    intro e he hq
    by_cases hpa : p a = true
    · rw [List.find?_cons_of_pos _ hpa] at he
      obtain rfl := Option.some.inj he
      rw [List.filter_cons_of_pos hq, List.find?_cons_of_pos _ hpa]
    · rw [List.find?_cons_of_neg _ hpa] at he
      by_cases hqa : q a = true
      · rw [List.filter_cons_of_pos hqa, List.find?_cons_of_neg _ hpa]
        exact ih e he hq
      · rw [List.filter_cons_of_neg (by simpa using hqa)]
        exact ih e he hq

theorem find?_filter_none {α : Type} (p q : α → Bool) (l : List α)
    (h : l.find? p = none) : (l.filter q).find? p = none := by
  rw [List.find?_eq_none] at h ⊢
  intro x hx
  exact h x (List.mem_of_mem_filter hx)

/-- Ring entries sorted by hash, as AddNode maintains them. -/
def SortedByHash (entries : List RingEntry) : Prop :=
  List.Pairwise (fun a b => a.hash ≤ b.hash) entries

/-- The first entry (clockwise from the key's hash, wrapping to the list
head) — a recursion-free description of GetPrimary on a sorted ring. -/
def findPrimary (entries : List RingEntry) (kh : Nat) : NodeID :=
  match entries.find? (fun e => decide (kh ≤ e.hash)) with
  | some e => e.id
  | none => (entries.headD dfltEntry).id

theorem getPrimary_eq_findPrimary (entries : List RingEntry) (key : String)
    (hs : SortedByHash entries) :
    getPrimary entries key = findPrimary entries (hashID key) := by
  by_cases hlen : entries.length = 0
  · have hnil : entries = [] := List.length_eq_zero.mp hlen
    subst hnil
    rfl
  · have mono : ∀ a b, a ≤ b → b < entries.length →
        (fun i => decide (hashID key ≤ (entries.getD i dfltEntry).hash)) a = true →
        (fun i => decide (hashID key ≤ (entries.getD i dfltEntry).hash)) b = true := by
      intro a b hab hb hfa
      rcases Nat.eq_or_lt_of_le hab with rfl | hab'
      · exact hfa
      · have ha : a < entries.length := Nat.lt_trans hab' hb
        simp only [decide_eq_true_iff] at hfa ⊢
        rw [List.getD_eq_getElem _ _ ha] at hfa
        rw [List.getD_eq_getElem _ _ hb]
        have hpair := List.pairwise_iff_getElem.mp hs a b ha hb hab'
        exact Nat.le_trans hfa hpair
    obtain ⟨hle, hfr, hlow⟩ := goSearch_spec
      (fun i => decide (hashID key ≤ (entries.getD i dfltEntry).hash))
      entries.length mono
    by_cases hr : searchStart entries (hashID key) = entries.length
    · have hnone : entries.find? (fun e => decide (hashID key ≤ e.hash)) = none := by
        rw [List.find?_eq_none]
        intro x hx
        obtain ⟨j, hj, hxe⟩ := List.mem_iff_getElem.mp hx
        have hjlt : j < searchStart entries (hashID key) := by
          rw [hr]
          exact hj
        have hfj := hlow j hjlt
        simp only [decide_eq_true_iff] at hfj ⊢
        rw [List.getD_eq_getElem _ _ hj] at hfj
        rw [← hxe]
        simpa using hfj
      unfold getPrimary findPrimary
      rw [if_neg hlen, hnone]
      unfold wrapStart
      rw [if_pos hr]
      cases entries with
      | nil => exact absurd rfl hlen
      | cons a t => rfl
    · have hrlt : searchStart entries (hashID key) < entries.length :=
        Nat.lt_of_le_of_ne (searchStart_le _ _) hr
      have hsome := find?_of_first (fun e => decide (hashID key ≤ e.hash))
        dfltEntry entries (searchStart entries (hashID key)) hrlt
        (fun k hk => hlow k hk) (hfr hrlt)
      unfold getPrimary findPrimary
      rw [if_neg hlen, hsome]
      unfold wrapStart
      rw [if_neg hr]

/-- C7: removing a physical node remaps only the keys it served: on a
sorted ring, any key whose primary differs from the removed node keeps
exactly the same primary after RemoveNode. -/
theorem c7_remove_preserves_primary (entries : List RingEntry) (rid : NodeID)
    (key : String) (hs : SortedByHash entries)
    (hp : getPrimary entries key ≠ rid) :
    getPrimary (removeNode entries rid) key = getPrimary entries key := by
  have hs' : SortedByHash (removeNode entries rid) := hs.filter _
  cases hf : entries.find? (fun e => decide (hashID key ≤ e.hash)) with
  | some e =>
    have hpe : e.id ≠ rid := by
      rw [getPrimary_eq_findPrimary entries key hs] at hp
      unfold findPrimary at hp
      rw [hf] at hp
      exact hp
    have hsome := find?_filter_some (fun e => decide (hashID key ≤ e.hash))
      (fun x => x.id != rid) entries e hf (by simpa using hpe)
    rw [getPrimary_eq_findPrimary entries key hs,
      getPrimary_eq_findPrimary (removeNode entries rid) key hs']
    unfold findPrimary removeNode
    rw [hf, hsome]
  | none =>
    have hnone := find?_filter_none (fun e => decide (hashID key ≤ e.hash))
      (fun x => x.id != rid) entries hf
    rw [getPrimary_eq_findPrimary entries key hs] at hp
    rw [getPrimary_eq_findPrimary entries key hs,
      getPrimary_eq_findPrimary (removeNode entries rid) key hs']
    unfold findPrimary at hp
    unfold findPrimary removeNode
    rw [hf] at hp ⊢
    rw [hnone]
    cases entries with
    | nil => rfl
    | cons a t =>
      have hpa : a.id ≠ rid := hp
      have hqa : (a.id != rid) = true := by simpa using hpa
      simp [List.filter_cons, hqa]

/-- Three-node sorted ring used to witness C7. -/
def c7Entries : List RingEntry := [⟨100, "A"⟩, ⟨200, "B"⟩, ⟨300, "C"⟩]

theorem c7_remove_preserves_primary_witness :
    getPrimary (removeNode c7Entries "B") "foo" = getPrimary c7Entries "foo" :=
  c7_remove_preserves_primary c7Entries "B" "foo"
    (by unfold SortedByHash c7Entries; decide) (by decide)

/-- Routing write-consistency levels (source: WriteConsistency consts). -/
inductive WriteConsistency where
  | WritePrimaryOnly
  | WriteReplicate
deriving DecidableEq, Repr

/-- selector.WriteTargets: the nodes that should receive a write, from
the replica list (ring.GetReplicas with the configured ReplicationFactor)
and the health oracle (source: selector.WriteTargets; selector.Replicas
is ring.GetReplicas(key, cfg.ReplicationFactor)). -/
def writeTargets (entries : List RingEntry) (health : NodeID → Bool)
    (wc : WriteConsistency) (rf : Nat) (key : String) : List NodeID :=
  match getReplicas entries key rf with
  | [] => []
  | primary :: rest =>
    match wc with
    | WriteConsistency.WritePrimaryOnly =>
      if health primary then [primary] else []
    | WriteConsistency.WriteReplicate =>
      (primary :: rest).filter health

/-- C9: under WritePrimaryOnly, WriteTargets(key) is exactly [primary]
when the primary is healthy and [] otherwise; under WriteReplicate it is
exactly the healthy members of the replica list, in priority order
(possibly empty); an empty replica list yields no targets under either
policy. -/
theorem c9_write_targets (entries : List RingEntry) (health : NodeID → Bool)
    (rf : Nat) (key : String) :
    (getReplicas entries key rf = [] →
      writeTargets entries health WriteConsistency.WritePrimaryOnly rf key = []
      ∧ writeTargets entries health WriteConsistency.WriteReplicate rf key = [])
    ∧ (getReplicas entries key rf ≠ [] →
      writeTargets entries health WriteConsistency.WritePrimaryOnly rf key =
        (if health (getPrimary entries key) then [getPrimary entries key] else [])
      ∧ writeTargets entries health WriteConsistency.WriteReplicate rf key =
        (getReplicas entries key rf).filter health) := by
  constructor
  · intro h
    constructor <;> simp only [writeTargets, h]
  · intro h
    cases hrep : getReplicas entries key rf with
    | nil => exact absurd hrep h
    | cons primary rest =>
      have hh := (getReplicas_shape entries key rf).2.2.1 h
      rw [hrep] at hh
      have hpr : primary = getPrimary entries key := by simpa using hh
      constructor
      · simp only [writeTargets, hrep]
        rw [← hpr]
      · simp only [writeTargets, hrep]

/-- Three-node ring and a health oracle marking "B" down, witnessing C9
(replication factor 3, one of three replicas unhealthy). -/
def c9Entries : List RingEntry := [⟨100, "A"⟩, ⟨200, "B"⟩, ⟨300, "C"⟩]

def c9Health : NodeID → Bool := fun id => id != "B"

theorem c9_write_targets_witness :
    (writeTargets c9Entries c9Health WriteConsistency.WritePrimaryOnly 3 "foo" =
      (if c9Health (getPrimary c9Entries "foo")
        then [getPrimary c9Entries "foo"] else []))
    ∧ writeTargets c9Entries c9Health WriteConsistency.WriteReplicate 3 "foo" =
      (getReplicas c9Entries "foo" 3).filter c9Health
    ∧ writeTargets ([] : List RingEntry) c9Health
        WriteConsistency.WritePrimaryOnly 3 "foo" = [] := by
  have h2 := (c9_write_targets c9Entries c9Health 3 "foo").2 (by decide)
  have h1 := (c9_write_targets ([] : List RingEntry) c9Health 3 "foo").1 (by decide)
  exact ⟨h2.1, h2.2, h1.1⟩
